import Mathlib

/-!
Shallow embedding of the keybr.com text-input engine.

Sources embedded here:
- src/packages/keybr-textinput/lib/textinput.ts  (class TextInput)
- src/unnamed/part_000                           (class Histogram)

The class fields of TextInput split into an immutable configuration
(target code points, settings, the external character classifier) and a
mutable state (committed steps, garbage buffer, outstanding-typo flag).
Methods become pure functions from configuration and state.  The
character classifier (isWhitespace, normalize, normalizeWhitespace,
imported by textinput.ts from external modules that are not part of the
embedded core) is kept abstract: it is a parameter of the configuration,
so every theorem below holds for an arbitrary classifier.
-/

namespace Keybr

/-- A committed or buffered keystroke record (interface Step of types.ts). -/
structure Step where
  codePoint : Nat
  timeStamp : Int
  typo : Bool
deriving DecidableEq, Repr

/-- Feedback values returned by TextInput.step. -/
inductive Feedback where
  | Succeeded
  | Recovered
  | Failed
deriving DecidableEq, Repr

/-- Display attributes of rendered characters.  Modelled from the spec:
the numeric constants attrHit, attrMiss, attrGarbage, attrCursor,
attrNormal come from types.ts which is not among the embedded files; the
spec lists them as the five possible annotations, so they are modelled
as a five-element inductive type. -/
inductive Attr where
  | hit
  | miss
  | garbage
  | cursor
  | normal
deriving DecidableEq, Repr

def attrHit : Attr := Attr.hit

def attrMiss : Attr := Attr.miss

def attrGarbage : Attr := Attr.garbage

def attrCursor : Attr := Attr.cursor

def attrNormal : Attr := Attr.normal

/-- A rendered character (interface Char of types.ts).  The source
interns structurally equal values through charCache; interning affects
object identity only, so the model keeps the plain structure. -/
structure Char where
  codePoint : Nat
  attrs : Attr
deriving DecidableEq, Repr

def recoverBufferLength : Nat := 3

def garbageBufferLength : Nat := 10

/-- The immutable part of a TextInput instance: the target text as code
points, the three settings, and the external character classifier. -/
structure TextInput where
  codePoints : List Nat
  stopOnError : Bool
  forgiveErrors : Bool
  spaceSkipsWords : Bool
  isWhitespace : Nat → Bool
  normalize : Nat → Nat
  normalizeWhitespace : Nat → Nat

/-- The mutable part of a TextInput instance: private fields
steps, garbage and typo. -/
structure State where
  steps : List Step
  garbage : List Step
  typo : Bool
deriving DecidableEq, Repr

/-- codePoints indexing; every in-bounds read of the source is
in bounds here, so the default value is never observed there. -/
def TextInput.charAt (ti : TextInput) (i : Nat) : Nat :=
  ti.codePoints.getD i 0

/-- garbage indexing with the same convention. -/
def garbageAt (s : State) (i : Nat) : Step :=
  s.garbage.getD i ⟨0, 0, false⟩

/-- The state established by the constructor and by reset(). -/
def initState : State :=
  { steps := [], garbage := [], typo := false }

/-- reset() clears the three mutable fields. -/
def TextInput.reset (_s : State) : State :=
  initState

/-- get completed(): steps.length === codePoints.length. -/
def TextInput.completed (ti : TextInput) (s : State) : Bool :=
  s.steps.length == ti.codePoints.length

/-- The while loop of handleSpace: keep committing the character at the
cursor as a typo while the cursor is in bounds and that character is not
whitespace. -/
def skipLoop (ti : TextInput) (timeStamp : Int) (steps : List Step) : List Step :=
  if h : steps.length < ti.codePoints.length ∧
      ti.isWhitespace (ti.charAt steps.length) = false then
    skipLoop ti timeStamp (steps ++ [⟨ti.charAt steps.length, timeStamp, true⟩])
  else
    steps
termination_by ti.codePoints.length - steps.length
decreasing_by
  simp only [List.length_append, List.length_cons, List.length_nil]
  omega

/-- Private method handleSpace of TextInput: commit the cursor character
as a typo, skip the non-whitespace run, consume one following whitespace
character, then clear garbage and the typo flag. -/
def TextInput.handleSpace (ti : TextInput) (timeStamp : Int) (s : State) : State :=
  let steps1 := s.steps ++ [⟨ti.charAt s.steps.length, timeStamp, true⟩]
  let steps2 := skipLoop ti timeStamp steps1
  let steps3 :=
    if steps2.length < ti.codePoints.length ∧
        ti.isWhitespace (ti.charAt steps2.length) = true then
      steps2 ++ [⟨ti.charAt steps2.length, timeStamp, false⟩]
    else
      steps2
  { steps := steps3, garbage := [], typo := false }

/-- Private method handleReplacedCharacter of TextInput.  The source
returns false (touching nothing) when the buffers are too short or the
lookahead comparison fails, and otherwise commits the expected character
as a typo stamped with the first garbage timestamp followed by every
garbage entry from index 1 onward as non-typo steps, then clears garbage
and the typo flag and returns true.  Here none models false and some
models true together with the updated state. -/
def TextInput.handleReplacedCharacter (ti : TextInput) (s : State) : Option State :=
  if s.garbage.length < recoverBufferLength + 1 ∨
      ti.codePoints.length < s.steps.length + recoverBufferLength + 1 then
    none
  else if (List.range recoverBufferLength).all
      (fun i => ti.charAt (s.steps.length + i + 1) == (garbageAt s (i + 1)).codePoint) then
    some
      { steps := s.steps
          ++ ⟨ti.charAt s.steps.length, (garbageAt s 0).timeStamp, true⟩
            :: (s.garbage.drop 1).map (fun g => ⟨g.codePoint, g.timeStamp, false⟩),
        garbage := [],
        typo := false }
  else
    none

/-- Private method handleSkippedCharacter of TextInput, with the same
Option convention as handleReplacedCharacter; on success every garbage
entry is committed as a non-typo step. -/
def TextInput.handleSkippedCharacter (ti : TextInput) (s : State) : Option State :=
  if s.garbage.length < recoverBufferLength ∨
      ti.codePoints.length < s.steps.length + recoverBufferLength + 1 then
    none
  else if (List.range recoverBufferLength).all
      (fun i => ti.charAt (s.steps.length + i + 1) == (garbageAt s i).codePoint) then
    some
      { steps := s.steps
          ++ ⟨ti.charAt s.steps.length, (garbageAt s 0).timeStamp, true⟩
            :: s.garbage.map (fun g => ⟨g.codePoint, g.timeStamp, false⟩),
        garbage := [],
        typo := false }
  else
    none

/-- The incorrect-input tail of step(): set the typo flag and buffer the
keystroke in garbage when buffering is active and there is spare
capacity. -/
def TextInput.mismatchState (ti : TextInput) (s : State) (cp : Nat) (timeStamp : Int) : State :=
  if (ti.stopOnError = false ∨ ti.forgiveErrors = true) ∧
      s.garbage.length < garbageBufferLength then
    { s with typo := true, garbage := s.garbage ++ [⟨cp, timeStamp, false⟩] }
  else
    { s with typo := true }

/-- The part of step() after the whitespace special cases: the
correct-input commit, else the incorrect-input path with the two
recovery heuristics (replaced first, skipped second). -/
def TextInput.stepTail (ti : TextInput) (s : State) (cp : Nat) (timeStamp : Int) :
    Feedback × State :=
  if ti.normalize (ti.charAt s.steps.length) = cp ∧
      (ti.forgiveErrors = true ∨ s.garbage.length = 0) then
    (if s.typo then Feedback.Recovered else Feedback.Succeeded,
      { steps := s.steps ++ [⟨cp, timeStamp, s.typo⟩], garbage := [], typo := false })
  else if ti.forgiveErrors = true then
    match (ti.handleReplacedCharacter (ti.mismatchState s cp timeStamp)).or
        (ti.handleSkippedCharacter (ti.mismatchState s cp timeStamp)) with
    | some s3 => (Feedback.Recovered, s3)
    | none => (Feedback.Failed, ti.mismatchState s cp timeStamp)
  else
    (Feedback.Failed, ti.mismatchState s cp timeStamp)

/-- Method step(codePoint, timeStamp) of TextInput.  The source throws
when the instance is already completed; that fatal error is modelled by
none, and a normal return by some of the feedback and the new state. -/
def TextInput.step (ti : TextInput) (s : State) (codePoint : Nat) (timeStamp : Int) :
    Option (Feedback × State) :=
  if ti.completed s = true then
    none
  else if s.steps.length = 0 ∧ s.garbage.length = 0 ∧ s.typo = false ∧
      ti.normalizeWhitespace codePoint = 0x0020 then
    some (Feedback.Succeeded, s)
  else if ti.normalizeWhitespace codePoint = 0x0008 then
    if 0 < s.garbage.length then
      some (Feedback.Succeeded, { s with garbage := s.garbage.dropLast })
    else
      some (Feedback.Failed, s)
  else if ti.normalizeWhitespace codePoint = 0x0020 ∧
      ti.isWhitespace (ti.charAt s.steps.length) = false then
    if s.garbage.length = 0 ∧
        (s.steps.length = 0 ∨
          ti.isWhitespace (ti.charAt (s.steps.length - 1)) = true) then
      some (Feedback.Succeeded, s)
    else if ti.spaceSkipsWords = true then
      some (Feedback.Recovered, ti.handleSpace timeStamp s)
    else
      some (ti.stepTail s (ti.normalizeWhitespace codePoint) timeStamp)
  else
    some (ti.stepTail s (ti.normalizeWhitespace codePoint) timeStamp)

/-- toChar of textinput.ts without the interning cache. -/
def toChar (codePoint : Nat) (attrs : Attr) : Char :=
  { codePoint := codePoint, attrs := attrs }

/-- Method getChars() of TextInput: the position-indexed rendering loop. -/
def TextInput.getChars (ti : TextInput) (s : State) : List Char :=
  (List.range ti.codePoints.length).flatMap fun i =>
    let codePoint := ti.charAt i
    if i < s.steps.length then
      [toChar codePoint (if (s.steps.getD i ⟨0, 0, false⟩).typo then attrMiss else attrHit)]
    else if i = s.steps.length then
      (if ti.stopOnError = false then
        s.garbage.map (fun g => toChar g.codePoint attrGarbage)
      else
        []) ++ [toChar codePoint attrCursor]
    else
      [toChar codePoint attrNormal]

/-- Driving a TextInput through a list of inputs, collecting the
feedback of every call; a none from step (the fatal after-completion
error) aborts the run as a thrown exception would. -/
def runSeq (ti : TextInput) (s : State) : List (Nat × Int) → List (Option Feedback) × State
  | [] => ([], s)
  | (cp, t) :: rest =>
    match ti.step s cp t with
    | none => ([none], s)
    | some (fb, s1) =>
      let r := runSeq ti s1 rest
      (some fb :: r.1, r.2)

/-- A per-code-point statistics record (interface Sample of types.ts,
as produced by Histogram). -/
structure Sample where
  codePoint : Nat
  hitCount : Nat
  missCount : Nat
  timeToType : Int
deriving DecidableEq, Repr

/-- The mutable accumulator held per code point inside Histogram.from. -/
structure Acc where
  hitCount : Nat
  missCount : Nat
  timeToType : Int
deriving DecidableEq, Repr

/-- Math.round applied to the exact rational num / den (den positive):
JavaScript rounds half toward positive infinity, which is the floor of
num / den + 1 / 2. -/
def mathRound (num : Int) (den : Nat) : Int :=
  Int.fdiv (2 * num + den) (2 * den)

/-- Updating the Map of Histogram.from at one key: mutate the entry when
the key is present, append a freshly initialised entry otherwise (a
JavaScript Map appends new keys at the end of its insertion order). -/
def bump (m : List (Nat × Acc)) (cp : Nat) (f : Acc → Acc) : List (Nat × Acc) :=
  match m with
  | [] => [(cp, f ⟨0, 0, 0⟩)]
  | (k, a) :: rest =>
    if k = cp then (k, f a) :: rest else (k, a) :: bump rest cp f

/-- The per-step update of the loop body of Histogram.from. -/
def stepAcc (last : Option Step) (st : Step) (a : Acc) : Acc :=
  let a1 : Acc := { a with hitCount := a.hitCount + 1 }
  if st.typo then
    { a1 with missCount := a1.missCount + 1 }
  else
    match last with
    | some l => { a1 with timeToType := a1.timeToType + (st.timeStamp - l.timeStamp) }
    | none => a1

/-- The whole loop of Histogram.from, threading the previous step. -/
def fromLoop (last : Option Step) (m : List (Nat × Acc)) : List Step → List (Nat × Acc)
  | [] => m
  | st :: rest => fromLoop (some st) (bump m st.codePoint (stepAcc last st)) rest

/-- The synthetic predecessor built from the startedAt option. -/
def lastOfStartedAt (startedAt : Option Int) : Option Step :=
  startedAt.map fun t => ⟨0, t, false⟩

/-- The sample array built at the end of Histogram.from, before the
constructor sorts it. -/
def fromSamples (steps : List Step) (startedAt : Option Int) : List Sample :=
  (fromLoop (lastOfStartedAt startedAt) [] steps).map fun p =>
    ⟨p.1, p.2.hitCount, p.2.missCount, mathRound p.2.timeToType p.2.hitCount⟩

/-- One stable insertion into a list sorted by codePoint: the new sample
goes after every strictly smaller key and before equal keys met later in
a right fold, which reproduces a stable ascending sort. -/
def insertByCodePoint (x : Sample) : List Sample → List Sample
  | [] => [x]
  | y :: ys =>
    if y.codePoint < x.codePoint then y :: insertByCodePoint x ys else x :: y :: ys

/-- The sort of the Histogram constructor.  The source sorts with the
comparator a.codePoint - b.codePoint through Array.sort, which is
required to be stable; a stable insertion sort computes the same list
and is structurally recursive, so it evaluates inside the kernel. -/
def sortByCodePoint : List Sample → List Sample
  | [] => []
  | x :: xs => insertByCodePoint x (sortByCodePoint xs)

/-- The Histogram class: its Map, represented as the sample list in Map
insertion order (the constructor inserts in ascending codePoint order). -/
structure Histogram where
  samples : List Sample
deriving DecidableEq, Repr

/-- The Histogram constructor: sort the samples by code point.  Inserting
the sorted array into a Map keeps one entry per key, the last write
winning, which get below reproduces. -/
def Histogram.ofSamples (samples : List Sample) : Histogram :=
  ⟨sortByCodePoint samples⟩

/-- Method get(codePoint) of Histogram: the Map lookup.  Duplicate keys
in the constructor input are resolved by the last write, hence the last
matching sample. -/
def Histogram.get (h : Histogram) (cp : Nat) : Option Sample :=
  (h.samples.filter fun s => s.codePoint == cp).getLast?

/-- Static method Histogram.from(steps, options): aggregate the steps
and build the histogram from the resulting samples. -/
def Histogram.fromSteps (steps : List Step) (startedAt : Option Int) : Histogram :=
  Histogram.ofSamples (fromSamples steps startedAt)

/-! Specification-side definitions: the quantities named by the spec,
written from its words, to be compared with the embedded code. -/

/-- The step sequence the word-skip heuristic is specified to commit
from a given cursor: the maximal run of non-whitespace target characters
from the cursor as typo steps at the triggering timestamp, then the
following character (necessarily whitespace), if any, as a non-typo
step. -/
def wordSkipSpec (ti : TextInput) (cursor : Nat) (t : Int) : List Step :=
  let run := (ti.codePoints.drop cursor).takeWhile fun c => !ti.isWhitespace c
  (run.map fun c => ⟨c, t, true⟩) ++
    match ti.codePoints.drop (cursor + run.length) with
    | c :: _ => [⟨c, t, false⟩]
    | [] => []

/-- Number of steps with the given code point. -/
def hitCountSpec (steps : List Step) (cp : Nat) : Nat :=
  (steps.filter fun s => s.codePoint == cp).length

/-- Number of typo steps with the given code point. -/
def missCountSpec (steps : List Step) (cp : Nat) : Nat :=
  (steps.filter fun s => s.codePoint == cp && s.typo).length

/-- Sum of the inter-step latencies of the non-typo steps with the given
code point, each measured from the immediately preceding step of the
whole sequence; a step with no predecessor contributes nothing. -/
def latSum (last : Option Step) (cp : Nat) : List Step → Int
  | [] => 0
  | st :: rest =>
    (if st.codePoint = cp ∧ st.typo = false ∧ last.isSome = true then
      st.timeStamp - (last.getD ⟨0, 0, false⟩).timeStamp
    else 0) + latSum (some st) cp rest

/-- Number of latencies summed by latSum. -/
def latCount (last : Option Step) (cp : Nat) : List Step → Nat
  | [] => 0
  | st :: rest =>
    (if st.codePoint = cp ∧ st.typo = false ∧ last.isSome = true then 1 else 0) +
      latCount (some st) cp rest

/-- The keys of the accumulator map of Histogram.from. -/
def keys (m : List (Nat × Acc)) : List Nat :=
  m.map Prod.fst

/-- Lookup in the accumulator map. -/
def lookupAcc : List (Nat × Acc) → Nat → Option Acc
  | [], _ => none
  | (k, a) :: rest, cp => if k = cp then some a else lookupAcc rest cp

/-- Lookup with the fresh-entry default. -/
def getAcc (m : List (Nat × Acc)) (cp : Nat) : Acc :=
  (lookupAcc m cp).getD ⟨0, 0, 0⟩

/-- The states of a TextInput instance reachable from construction by
any sequence of step and reset calls. -/
inductive Reachable (ti : TextInput) : State → Prop where
  | init : Reachable ti initState
  | reset (s : State) : Reachable ti s → Reachable ti (TextInput.reset s)
  | step (s : State) (cp : Nat) (t : Int) (fb : Feedback) (s1 : State) :
      Reachable ti s → ti.step s cp t = some (fb, s1) → Reachable ti s1

/-! Concrete instances used by witnesses and counterexamples.  The
classifier is the plain one: only the space code point is whitespace and
normalization is the identity. -/

/-- Target text abcd with forgiveErrors enabled. -/
def tiABCD : TextInput :=
  { codePoints := [97, 98, 99, 100], stopOnError := false, forgiveErrors := true,
    spaceSkipsWords := false, isWhitespace := fun c => c == 32,
    normalize := fun c => c, normalizeWhitespace := fun c => c }

/-- Target text abcd with every setting disabled. -/
def tiPlain : TextInput :=
  { codePoints := [97, 98, 99, 100], stopOnError := false, forgiveErrors := false,
    spaceSkipsWords := false, isWhitespace := fun c => c == 32,
    normalize := fun c => c, normalizeWhitespace := fun c => c }

/-- Target text foo bar with spaceSkipsWords enabled. -/
def tiFoo : TextInput :=
  { codePoints := [102, 111, 111, 32, 98, 97, 114], stopOnError := false,
    forgiveErrors := false, spaceSkipsWords := true, isWhitespace := fun c => c == 32,
    normalize := fun c => c, normalizeWhitespace := fun c => c }

/-- An empty target text. -/
def tiEmpty : TextInput :=
  { codePoints := [], stopOnError := false, forgiveErrors := false,
    spaceSkipsWords := false, isWhitespace := fun c => c == 32,
    normalize := fun c => c, normalizeWhitespace := fun c => c }

/-- Garbage holding x b c d: the replaced-character situation of the
spec example on target abcd. -/
def sRep : State :=
  { steps := [],
    garbage := [⟨120, 1, false⟩, ⟨98, 2, false⟩, ⟨99, 3, false⟩, ⟨100, 4, false⟩],
    typo := true }

/-- Garbage holding b c d: the skipped-character situation of the spec
example on target abcd. -/
def sSkip : State :=
  { steps := [],
    garbage := [⟨98, 2, false⟩, ⟨99, 3, false⟩, ⟨100, 4, false⟩],
    typo := true }

/-- Non-empty garbage at cursor 0 of foo bar, as needed to reach the
word-skip branch. -/
def sFoo : State :=
  { steps := [], garbage := [⟨120, 5, false⟩], typo := true }

/-- The step list of the histogram example of the spec. -/
def exSteps : List Step :=
  [⟨97, 0, false⟩, ⟨97, 10, false⟩, ⟨97, 5, true⟩]

/-- The state after feeding the wrong character x to a fresh tiPlain. -/
def sAfterX : State :=
  { steps := [], garbage := [⟨120, 0, false⟩], typo := true }

/-! Theorems. -/

/-- C1: Replaced-character recovery succeeds exactly when the garbage
buffer holds at least 4 entries, the target has at least 4 characters
left from the cursor, and garbage entries 1 to 3 match the target code
points at cursor offsets 1 to 3; on success it commits the expected
character at the cursor as a typo stamped with the first garbage
timestamp, then every garbage entry from index 1 onward, including
unverified entries past index 3, as non-typo steps carrying their own
timestamps, and clears the garbage buffer and the typo flag; otherwise
it changes nothing and commits nothing. -/
theorem handleReplacedCharacter_spec (ti : TextInput) (s s1 : State) :
    ti.handleReplacedCharacter s = some s1 ↔
      4 ≤ s.garbage.length ∧
      s.steps.length + 4 ≤ ti.codePoints.length ∧
      (∀ i, i < 3 → (garbageAt s (i + 1)).codePoint = ti.charAt (s.steps.length + i + 1)) ∧
      s1 =
        { steps := s.steps
            ++ ⟨ti.charAt s.steps.length, (garbageAt s 0).timeStamp, true⟩
              :: (s.garbage.drop 1).map (fun g => ⟨g.codePoint, g.timeStamp, false⟩),
          garbage := [],
          typo := false } := by
  unfold TextInput.handleReplacedCharacter recoverBufferLength
  split_ifs with h1 h2
  · constructor
    · intro h
      exact absurd h (by simp)
    · rintro ⟨hg, hn, -, -⟩
      exfalso
      omega
  · have hall : ∀ i, i < 3 →
        ti.charAt (s.steps.length + i + 1) = (garbageAt s (i + 1)).codePoint := by
      intro i hi
      exact beq_iff_eq.mp ((List.all_eq_true.mp h2) i (List.mem_range.mpr hi))
    constructor
    · intro h
      injection h with h
      subst h
      exact ⟨by omega, by omega, fun i hi => (hall i hi).symm, rfl⟩
    · rintro ⟨-, -, -, rfl⟩
      rfl
  · constructor
    · intro h
      exact absurd h (by simp)
    · rintro ⟨-, -, hall, -⟩
      exact absurd (List.all_eq_true.mpr fun i hi =>
        beq_iff_eq.mpr (hall i (List.mem_range.mp hi)).symm) h2

/-- C1 witness: on target abcd with garbage x b c d the recovery fires
and commits a as a typo at the timestamp of x followed by b, c, d as
non-typo steps with their own timestamps. -/
theorem handleReplacedCharacter_spec_witness :
    tiABCD.handleReplacedCharacter sRep =
      some
        { steps := [⟨97, 1, true⟩, ⟨98, 2, false⟩, ⟨99, 3, false⟩, ⟨100, 4, false⟩],
          garbage := [],
          typo := false } :=
  (handleReplacedCharacter_spec tiABCD sRep
    { steps := [⟨97, 1, true⟩, ⟨98, 2, false⟩, ⟨99, 3, false⟩, ⟨100, 4, false⟩],
      garbage := [],
      typo := false }).mpr ⟨by decide, by decide, by decide, by decide⟩

/-- C2: Skipped-character recovery succeeds exactly when the garbage
buffer holds at least 3 entries, the target has at least 4 characters
left from the cursor, and garbage entries 0 to 2 match the target code
points at cursor offsets 1 to 3; on success it commits the expected
character at the cursor as a typo stamped with the first garbage
timestamp, with no interpolation, then every garbage entry as a
non-typo step carrying its own timestamp, and clears the garbage buffer
and the typo flag; moreover on the incorrect-input path
replaced-character recovery is consulted first, and when it succeeds its
outcome is the one returned. -/
theorem handleSkippedCharacter_spec (ti : TextInput) :
    (∀ s s1 : State,
      ti.handleSkippedCharacter s = some s1 ↔
        3 ≤ s.garbage.length ∧
        s.steps.length + 4 ≤ ti.codePoints.length ∧
        (∀ i, i < 3 → (garbageAt s i).codePoint = ti.charAt (s.steps.length + i + 1)) ∧
        s1 =
          { steps := s.steps
              ++ ⟨ti.charAt s.steps.length, (garbageAt s 0).timeStamp, true⟩
                :: s.garbage.map (fun g => ⟨g.codePoint, g.timeStamp, false⟩),
            garbage := [],
            typo := false }) ∧
    (∀ (s : State) (cp : Nat) (t : Int) (s3 : State),
      ¬(ti.normalize (ti.charAt s.steps.length) = cp ∧
        (ti.forgiveErrors = true ∨ s.garbage.length = 0)) →
      ti.forgiveErrors = true →
      ti.handleReplacedCharacter (ti.mismatchState s cp t) = some s3 →
      ti.stepTail s cp t = (Feedback.Recovered, s3)) := by
  constructor
  · intro s s1
    unfold TextInput.handleSkippedCharacter recoverBufferLength
    split_ifs with h1 h2
    · constructor
      · intro h
        exact absurd h (by simp)
      · rintro ⟨hg, hn, -, -⟩
        exfalso
        omega
    · have hall : ∀ i, i < 3 →
          ti.charAt (s.steps.length + i + 1) = (garbageAt s i).codePoint := by
        intro i hi
        exact beq_iff_eq.mp ((List.all_eq_true.mp h2) i (List.mem_range.mpr hi))
      constructor
      · intro h
        injection h with h
        subst h
        exact ⟨by omega, by omega, fun i hi => (hall i hi).symm, rfl⟩
      · rintro ⟨-, -, -, rfl⟩
        rfl
    · constructor
      · intro h
        exact absurd h (by simp)
      · rintro ⟨-, -, hall, -⟩
        exact absurd (List.all_eq_true.mpr fun i hi =>
          beq_iff_eq.mpr (hall i (List.mem_range.mp hi)).symm) h2
  · intro s cp t s3 hmatch hforgive hrep
    unfold TextInput.stepTail
    rw [if_neg hmatch, if_pos hforgive, hrep]
    rfl

/-- C2 witness: on target abcd with garbage b c d the recovery fires,
commits a as a typo at the timestamp of b, then b, c, d as non-typo
steps with their own timestamps; and on the mismatch path of tiABCD the
replaced-character recovery outcome takes precedence. -/
theorem handleSkippedCharacter_spec_witness :
    tiABCD.handleSkippedCharacter sSkip =
      some
        { steps := [⟨97, 2, true⟩, ⟨98, 2, false⟩, ⟨99, 3, false⟩, ⟨100, 4, false⟩],
          garbage := [],
          typo := false } ∧
    tiABCD.stepTail { steps := [], garbage := sRep.garbage.take 3, typo := true } 100 4 =
      (Feedback.Recovered,
        { steps := [⟨97, 1, true⟩, ⟨98, 2, false⟩, ⟨99, 3, false⟩, ⟨100, 4, false⟩],
          garbage := [],
          typo := false }) :=
  ⟨((handleSkippedCharacter_spec tiABCD).1 sSkip
      { steps := [⟨97, 2, true⟩, ⟨98, 2, false⟩, ⟨99, 3, false⟩, ⟨100, 4, false⟩],
        garbage := [],
        typo := false }).mpr ⟨by decide, by decide, by decide, by decide⟩,
    (handleSkippedCharacter_spec tiABCD).2
      { steps := [], garbage := sRep.garbage.take 3, typo := true } 100 4 _
      (by decide) (by decide) (by decide)⟩

/-- C9: the machine is a pure function of its explicit state and inputs;
replaying the same input and timestamp sequence after reset() reproduces
the same feedback sequence, the same committed steps and the same
rendering projection as a run from the freshly constructed state. -/
theorem replay_deterministic (ti : TextInput) (s : State) (inputs : List (Nat × Int)) :
    runSeq ti (TextInput.reset s) inputs = runSeq ti initState inputs ∧
    (runSeq ti (TextInput.reset s) inputs).2.steps = (runSeq ti initState inputs).2.steps ∧
    ti.getChars (runSeq ti (TextInput.reset s) inputs).2 =
      ti.getChars (runSeq ti initState inputs).2 :=
  ⟨rfl, rfl, rfl⟩

/-- C10: with an empty target text the machine is completed immediately
after construction and after any reset, and every step call, for any
code point including backspace and space, is the fatal after-completion
error and commits nothing. -/
theorem empty_text_completed (ti : TextInput) (h : ti.codePoints = []) :
    ti.completed initState = true ∧
    (∀ s : State, ti.completed (TextInput.reset s) = true) ∧
    (∀ (cp : Nat) (t : Int), ti.step initState cp t = none) ∧
    (∀ (s : State) (cp : Nat) (t : Int),
      ti.completed s = true → ti.step s cp t = none) := by
  refine ⟨by simp [TextInput.completed, initState, h], fun s => by
    simp [TextInput.completed, TextInput.reset, initState, h], fun cp t => ?_,
    fun s cp t hs => ?_⟩
  · unfold TextInput.step
    rw [if_pos (by simp [TextInput.completed, initState, h])]
  · unfold TextInput.step
    rw [if_pos hs]

/-- C10 witness: the concrete empty-target instance. -/
theorem empty_text_completed_witness :
    tiEmpty.codePoints = [] ∧
    tiEmpty.completed initState = true ∧
    (∀ s : State, tiEmpty.completed (TextInput.reset s) = true) ∧
    (∀ (cp : Nat) (t : Int), tiEmpty.step initState cp t = none) ∧
    (∀ (s : State) (cp : Nat) (t : Int),
      tiEmpty.completed s = true → tiEmpty.step s cp t = none) :=
  ⟨rfl, (empty_text_completed tiEmpty rfl).1, (empty_text_completed tiEmpty rfl).2.1,
    (empty_text_completed tiEmpty rfl).2.2.1, (empty_text_completed tiEmpty rfl).2.2.2⟩

/-! Helper lemmas on the incorrect-input path, shared by several
theorems below. -/

lemma mismatchState_typo (ti : TextInput) (s : State) (cp : Nat) (t : Int) :
    (ti.mismatchState s cp t).typo = true := by
  unfold TextInput.mismatchState
  split_ifs <;> rfl

lemma mismatchState_steps (ti : TextInput) (s : State) (cp : Nat) (t : Int) :
    (ti.mismatchState s cp t).steps = s.steps := by
  unfold TextInput.mismatchState
  split_ifs <;> rfl

lemma mismatchState_garbage (ti : TextInput) (s : State) (cp : Nat) (t : Int) :
    (ti.mismatchState s cp t).garbage = s.garbage ++ [⟨cp, t, false⟩] ∨
      (ti.mismatchState s cp t).garbage = s.garbage := by
  unfold TextInput.mismatchState
  split_ifs
  · exact Or.inl rfl
  · exact Or.inr rfl

lemma mismatchState_garbage_full (ti : TextInput) (s : State) (cp : Nat) (t : Int)
    (h : s.garbage.length = garbageBufferLength) :
    (ti.mismatchState s cp t).garbage = s.garbage := by
  unfold TextInput.mismatchState
  rw [if_neg (by omega)]

lemma stepTail_failed (ti : TextInput) (s : State) (cp : Nat) (t : Int) (s1 : State)
    (h : ti.stepTail s cp t = (Feedback.Failed, s1)) :
    s1 = ti.mismatchState s cp t := by
  unfold TextInput.stepTail at h
  by_cases hm : ti.normalize (ti.charAt s.steps.length) = cp ∧
      (ti.forgiveErrors = true ∨ s.garbage.length = 0)
  · rw [if_pos hm] at h
    rcases hty : s.typo <;> rw [hty] at h <;> simp at h
  · rw [if_neg hm] at h
    by_cases hf : ti.forgiveErrors = true
    · rw [if_pos hf] at h
      split at h
      · simp at h
      · simp only [Prod.mk.injEq] at h
        exact h.2.symm
    · rw [if_neg hf] at h
      simp only [Prod.mk.injEq] at h
      exact h.2.symm

lemma step_failed_cases (ti : TextInput) (s : State) (cp : Nat) (t : Int) (s1 : State)
    (h : ti.step s cp t = some (Feedback.Failed, s1)) :
    (ti.normalizeWhitespace cp = 0x0008 ∧ s.garbage = [] ∧ s1 = s) ∨
      s1 = ti.mismatchState s (ti.normalizeWhitespace cp) t := by
  unfold TextInput.step at h
  split_ifs at h with h1 h2 h3 h4 h5 h6 h7
  all_goals simp at h
  · exact Or.inl ⟨h3, List.length_eq_zero.mp (by omega), h.symm⟩
  · exact Or.inr (stepTail_failed ti s _ t s1 h)
  · exact Or.inr (stepTail_failed ti s _ t s1 h)

/-- C5 counterexample: on target abcd with every setting disabled, a
fresh machine given the wrong character x returns Failed, yet the call
has set the typo flag and appended the keystroke to the garbage buffer,
so the state is not the same after the call as before it. -/
theorem step_failed_state_change_cex :
    tiPlain.step initState 120 0 = some (Feedback.Failed, sAfterX) ∧
    sAfterX.garbage ≠ initState.garbage ∧
    sAfterX.typo ≠ initState.typo := by
  refine ⟨by decide, by decide, by decide⟩

/-- C5 (amended): a step call that returns Failed commits nothing: the
committed history is unchanged and no step is emitted to the listener;
the garbage buffer and the outstanding-typo flag may change, since the
mismatch path sets the flag and may buffer the keystroke. -/
theorem step_failed_preserves_committed (ti : TextInput) (s : State) (cp : Nat)
    (t : Int) (s1 : State) (h : ti.step s cp t = some (Feedback.Failed, s1)) :
    s1.steps = s.steps := by
  rcases step_failed_cases ti s cp t s1 h with ⟨-, -, rfl⟩ | rfl
  · rfl
  · exact mismatchState_steps ti s _ t

/-- C5 witness: the amended statement at the concrete failing call. -/
theorem step_failed_preserves_committed_witness :
    tiPlain.step initState 120 0 = some (Feedback.Failed, sAfterX) ∧
    sAfterX.steps = initState.steps :=
  ⟨by decide, step_failed_preserves_committed tiPlain initState 120 0 sAfterX (by decide)⟩

/-! The word-skip loop, characterized through takeWhile. -/

lemma dropWhile_head_false {α : Type} (p : α → Bool) :
    ∀ (l : List α) (c : α) (r : List α), l.dropWhile p = c :: r → p c = false := by
  intro l
  induction l with
  | nil => intro c r h; simp at h
  | cons a l ih =>
    intro c r h
    rw [List.dropWhile_cons] at h
    split_ifs at h with ha
    · exact ih c r h
    · injection h with h1 _
      subst h1
      exact Bool.not_eq_true _ |>.mp ha

lemma skipLoop_eq (ti : TextInput) (t : Int) (steps : List Step) :
    skipLoop ti t steps = steps ++
      ((ti.codePoints.drop steps.length).takeWhile (fun c => !ti.isWhitespace c)).map
        (fun c => ⟨c, t, true⟩) := by
  rw [skipLoop]
  split_ifs with h
  · obtain ⟨hlen, hws⟩ := h
    rw [skipLoop_eq ti t (steps ++ [(⟨ti.charAt steps.length, t, true⟩ : Step)])]
    have hdrop : ti.codePoints.drop steps.length =
        ti.charAt steps.length :: ti.codePoints.drop (steps.length + 1) := by
      rw [List.drop_eq_getElem_cons hlen]
      rw [TextInput.charAt, List.getD_eq_getElem _ _ hlen]
    rw [hdrop, List.takeWhile_cons, if_pos (by simp [hws])]
    simp [List.length_append]
  · by_cases hlen : steps.length < ti.codePoints.length
    · have hws : ti.isWhitespace (ti.charAt steps.length) = true := by
        rcases hb : ti.isWhitespace (ti.charAt steps.length) with _ | _
        · exact absurd ⟨hlen, hb⟩ h
        · rfl
      have hdrop : ti.codePoints.drop steps.length =
          ti.charAt steps.length :: ti.codePoints.drop (steps.length + 1) := by
        rw [List.drop_eq_getElem_cons hlen]
        rw [TextInput.charAt, List.getD_eq_getElem _ _ hlen]
      rw [hdrop, List.takeWhile_cons, if_neg (by simp [hws])]
      simp
    · rw [List.drop_eq_nil_of_le (by omega)]
      simp
termination_by ti.codePoints.length - steps.length
decreasing_by
  simp only [List.length_append, List.length_cons, List.length_nil]
  omega

lemma handleSpace_eq (ti : TextInput) (t : Int) (s : State)
    (hlen : s.steps.length < ti.codePoints.length)
    (hws : ti.isWhitespace (ti.charAt s.steps.length) = false) :
    ti.handleSpace t s =
      { steps := s.steps ++ wordSkipSpec ti s.steps.length t,
        garbage := [],
        typo := false } := by
  have hdrop : ti.codePoints.drop s.steps.length =
      ti.charAt s.steps.length :: ti.codePoints.drop (s.steps.length + 1) := by
    rw [List.drop_eq_getElem_cons hlen]
    rw [TextInput.charAt, List.getD_eq_getElem _ _ hlen]
  have hrun : (ti.codePoints.drop s.steps.length).takeWhile (fun c => !ti.isWhitespace c) =
      ti.charAt s.steps.length ::
        (ti.codePoints.drop (s.steps.length + 1)).takeWhile (fun c => !ti.isWhitespace c) := by
    rw [hdrop, List.takeWhile_cons, if_pos (by simp [hws])]
  have hskip := skipLoop_eq ti t (s.steps ++ [(⟨ti.charAt s.steps.length, t, true⟩ : Step)])
  simp only [List.length_append, List.length_singleton] at hskip
  simp only [TextInput.handleSpace, wordSkipSpec]
  rw [hskip, hrun]
  simp only [List.length_append, List.length_singleton, List.length_map, List.length_cons,
    List.length_nil, Nat.zero_add, List.map_cons]
  rw [show s.steps.length +
      ((List.takeWhile (fun c => !ti.isWhitespace c)
        (List.drop (s.steps.length + 1) ti.codePoints)).length + 1) =
    s.steps.length + 1 +
      (List.takeWhile (fun c => !ti.isWhitespace c)
        (List.drop (s.steps.length + 1) ti.codePoints)).length from by omega]
  rcases hrest : List.drop (s.steps.length + 1 +
      (List.takeWhile (fun c => !ti.isWhitespace c)
        (List.drop (s.steps.length + 1) ti.codePoints)).length) ti.codePoints with _ | ⟨c, r⟩
  · have hge := congrArg List.length hrest
    simp only [List.length_drop, List.length_nil] at hge
    rw [if_neg (fun hcontra => absurd hcontra.1 (by omega))]
    simp [State.mk.injEq, List.append_assoc]
  · have hlens := congrArg List.length hrest
    simp only [List.length_drop, List.length_cons] at hlens
    have hlt : s.steps.length + 1 +
        (List.takeWhile (fun c => !ti.isWhitespace c)
          (List.drop (s.steps.length + 1) ti.codePoints)).length < ti.codePoints.length := by
      omega
    have hc : ti.charAt (s.steps.length + 1 +
        (List.takeWhile (fun c => !ti.isWhitespace c)
          (List.drop (s.steps.length + 1) ti.codePoints)).length) = c := by
      rw [TextInput.charAt, List.getD_eq_getElem _ _ hlt]
      rw [List.drop_eq_getElem_cons hlt] at hrest
      injection hrest with h1 h2
    have hdw : (ti.codePoints.drop s.steps.length).dropWhile
        (fun c => !ti.isWhitespace c) = c :: r := by
      rw [← hrest]
      rw [show s.steps.length + 1 +
          (List.takeWhile (fun c => !ti.isWhitespace c)
            (List.drop (s.steps.length + 1) ti.codePoints)).length =
        s.steps.length + (1 +
          (List.takeWhile (fun c => !ti.isWhitespace c)
            (List.drop (s.steps.length + 1) ti.codePoints)).length) from by omega]
      rw [← List.drop_drop]
      conv_rhs => rw [← List.takeWhile_append_dropWhile (fun c => !ti.isWhitespace c)
        (ti.codePoints.drop s.steps.length)]
      rw [show 1 + (List.takeWhile (fun c => !ti.isWhitespace c)
            (List.drop (s.steps.length + 1) ti.codePoints)).length =
          ((ti.codePoints.drop s.steps.length).takeWhile
            (fun c => !ti.isWhitespace c)).length from by rw [hrun]; simp [Nat.add_comm]]
      rw [List.drop_left]
    have hwsc : ti.isWhitespace c = true := by
      have := dropWhile_head_false (fun c => !ti.isWhitespace c) _ c r hdw
      simpa using this
    rw [if_pos ⟨hlt, by rw [hc]; exact hwsc⟩, hc]
    simp [State.mk.injEq, List.append_assoc]

/-- C3: when step receives a space, the expected character at the
cursor is not whitespace, the state is not at a word boundary (the
garbage buffer is non-empty, or the previously committed character is a
non-whitespace character at a non-initial cursor), and spaceSkipsWords
is enabled, the machine returns Recovered after committing the cursor
character and every following non-whitespace character as typos at the
timestamp of the triggering space, then the following whitespace
character, if any, as a non-typo step, and clearing the garbage buffer
and the typo flag. -/
theorem word_skip_spec (ti : TextInput) (s : State) (cp0 : Nat) (t : Int)
    (hlen : s.steps.length < ti.codePoints.length)
    (hsp : ti.normalizeWhitespace cp0 = 0x0020)
    (hw : ti.isWhitespace (ti.charAt s.steps.length) = false)
    (hmid : s.garbage ≠ [] ∨
      (s.steps ≠ [] ∧ ti.isWhitespace (ti.charAt (s.steps.length - 1)) = false))
    (hset : ti.spaceSkipsWords = true) :
    ti.step s cp0 t =
      some (Feedback.Recovered,
        { steps := s.steps ++ wordSkipSpec ti s.steps.length t,
          garbage := [],
          typo := false }) := by
  unfold TextInput.step
  rw [if_neg (by simp only [TextInput.completed, beq_iff_eq]; omega)]
  rw [if_neg (by
    rintro ⟨h1, h2, -, -⟩
    rcases hmid with hg | ⟨hs, -⟩
    · exact hg (List.length_eq_zero.mp h2)
    · exact hs (List.length_eq_zero.mp h1))]
  rw [if_neg (by rw [hsp]; decide)]
  rw [if_pos ⟨hsp, hw⟩]
  rw [if_neg (by
    rintro ⟨hg0, hd⟩
    rcases hmid with hg | ⟨hs, hwsprev⟩
    · exact hg (List.length_eq_zero.mp hg0)
    · rcases hd with h0 | hws1
      · exact hs (List.length_eq_zero.mp h0)
      · exact absurd hws1 (by rw [hwsprev]; decide))]
  rw [if_pos hset, handleSpace_eq ti t s hlen hw]

/-- C3 witness: target foo bar, cursor 0, non-empty garbage, input
space: commits f, o, o as typos and the trailing space as a non-typo,
and the cursor lands at position 4, the start of bar. -/
theorem word_skip_spec_witness :
    tiFoo.step sFoo 32 9 =
      some (Feedback.Recovered,
        { steps := [⟨102, 9, true⟩, ⟨111, 9, true⟩, ⟨111, 9, true⟩, ⟨32, 9, false⟩],
          garbage := [],
          typo := false }) ∧
    (sFoo.steps ++ wordSkipSpec tiFoo sFoo.steps.length 9).length = 4 :=
  ⟨(word_skip_spec tiFoo sFoo 32 9 (by decide) (by decide) (by decide)
      (Or.inl (by decide)) rfl).trans (by decide), by decide⟩

/-! Shape lemmas about the committing operations, shared below. -/

lemma getD_append_cons {α : Type} (l : List α) (x : α) (r : List α) (d : α) :
    (l ++ x :: r).getD l.length d = x := by
  have hb : l.length < (l ++ x :: r).length := by simp
  rw [List.getD_eq_getElem _ _ hb]
  rw [List.getElem_append_right (Nat.le_refl l.length)]
  simp

lemma replaced_some_parts (ti : TextInput) (s s1 : State)
    (h : ti.handleReplacedCharacter s = some s1) :
    s1.typo = false ∧ s1.garbage = [] ∧
    s1.steps = s.steps ++ ⟨ti.charAt s.steps.length, (garbageAt s 0).timeStamp, true⟩ ::
      (s.garbage.drop 1).map (fun g => ⟨g.codePoint, g.timeStamp, false⟩) := by
  unfold TextInput.handleReplacedCharacter at h
  split_ifs at h
  rw [Option.some_inj] at h
  subst h
  exact ⟨rfl, rfl, rfl⟩

lemma skipped_some_parts (ti : TextInput) (s s1 : State)
    (h : ti.handleSkippedCharacter s = some s1) :
    s1.typo = false ∧ s1.garbage = [] ∧
    s1.steps = s.steps ++ ⟨ti.charAt s.steps.length, (garbageAt s 0).timeStamp, true⟩ ::
      s.garbage.map (fun g => ⟨g.codePoint, g.timeStamp, false⟩) := by
  unfold TextInput.handleSkippedCharacter at h
  split_ifs at h
  rw [Option.some_inj] at h
  subst h
  exact ⟨rfl, rfl, rfl⟩

lemma handleSpace_parts (ti : TextInput) (t : Int) (s : State) :
    (ti.handleSpace t s).typo = false ∧ (ti.handleSpace t s).garbage = [] ∧
    ∃ rest, (ti.handleSpace t s).steps =
      s.steps ++ ⟨ti.charAt s.steps.length, t, true⟩ :: rest := by
  refine ⟨by simp [TextInput.handleSpace], by simp [TextInput.handleSpace], ?_⟩
  simp only [TextInput.handleSpace]
  rw [skipLoop_eq]
  simp only [List.length_append, List.length_singleton]
  split_ifs with hcond
  · refine ⟨((ti.codePoints.drop (s.steps.length + 1)).takeWhile
        (fun c => !ti.isWhitespace c)).map (fun c => ⟨c, t, true⟩) ++
        [⟨ti.charAt (s.steps.length + 1 +
          ((ti.codePoints.drop (s.steps.length + 1)).takeWhile
            (fun c => !ti.isWhitespace c)).length), t, false⟩], ?_⟩
    simp [List.append_assoc]
  · refine ⟨((ti.codePoints.drop (s.steps.length + 1)).takeWhile
      (fun c => !ti.isWhitespace c)).map (fun c => ⟨c, t, true⟩), ?_⟩
    simp [List.append_assoc]

lemma stepTail_analysis (ti : TextInput) (s : State) (cp : Nat) (t : Int)
    (fb : Feedback) (s1 : State) (h : ti.stepTail s cp t = (fb, s1)) :
    (s1.typo = false → s.steps.length < s1.steps.length) ∧
    (s.typo = true → s.steps.length < s1.steps.length →
      (s1.steps.getD s.steps.length ⟨0, 0, false⟩).typo = true) ∧
    (fb = Feedback.Failed → s1.typo = true) := by
  unfold TextInput.stepTail at h
  by_cases hm : ti.normalize (ti.charAt s.steps.length) = cp ∧
      (ti.forgiveErrors = true ∨ s.garbage.length = 0)
  · rw [if_pos hm] at h
    simp only [Prod.mk.injEq] at h
    obtain ⟨hfb, hs1⟩ := h
    subst hs1
    refine ⟨fun _ => by simp, fun hty _ => ?_, fun hf => ?_⟩
    · have := getD_append_cons s.steps (⟨cp, t, s.typo⟩ : Step) [] ⟨0, 0, false⟩
      simp only [this]
      exact hty
    · rcases hty : s.typo <;> rw [hty] at hfb <;> rw [← hfb] at hf <;> simp at hf
  · rw [if_neg hm] at h
    by_cases hforgive : ti.forgiveErrors = true
    · rw [if_pos hforgive] at h
      split at h
      · next s3 hor =>
        simp only [Prod.mk.injEq] at h
        obtain ⟨hfb, hs1⟩ := h
        subst hs1
        have hparts : s3.typo = false ∧ s3.garbage = [] ∧
            ∃ first rest, first.typo = true ∧
              s3.steps = (ti.mismatchState s cp t).steps ++ first :: rest := by
          rcases Option.or_eq_some.mp hor with hrep | ⟨-, hskipd⟩
          · obtain ⟨h1, h2, h3⟩ := replaced_some_parts ti _ s3 hrep
            exact ⟨h1, h2, _, _, rfl, h3⟩
          · obtain ⟨h1, h2, h3⟩ := skipped_some_parts ti _ s3 hskipd
            exact ⟨h1, h2, _, _, rfl, h3⟩
        obtain ⟨hty1, -, first, rest, hfty, hsteps⟩ := hparts
        rw [mismatchState_steps] at hsteps
        refine ⟨fun _ => by rw [hsteps]; simp, fun _ _ => ?_, fun hf => ?_⟩
        · rw [hsteps, getD_append_cons]
          exact hfty
        · rw [← hfb] at hf
          simp at hf
      · simp only [Prod.mk.injEq] at h
        obtain ⟨hfb, hs1⟩ := h
        subst hs1
        refine ⟨fun hty0 => ?_, fun _ hlt => ?_, fun _ => mismatchState_typo ti s cp t⟩
        · rw [mismatchState_typo] at hty0
          simp at hty0
        · rw [mismatchState_steps] at hlt
          exact absurd hlt (Nat.lt_irrefl _)
    · rw [if_neg hforgive] at h
      simp only [Prod.mk.injEq] at h
      obtain ⟨hfb, hs1⟩ := h
      subst hs1
      refine ⟨fun hty0 => ?_, fun _ hlt => ?_, fun _ => mismatchState_typo ti s cp t⟩
      · rw [mismatchState_typo] at hty0
        simp at hty0
      · rw [mismatchState_steps] at hlt
        exact absurd hlt (Nat.lt_irrefl _)

/-- C6: the outstanding-typo flag goes from true to false only when a
character is committed or on reset (which clears it); backspace never
modifies the flag and never touches committed history, only possibly
popping garbage; the first character committed while the flag is set is
recorded with typo = true; and a non-backspace keystroke that fails, the
mismatch case, leaves the flag set. -/
theorem typo_flag_lifecycle (ti : TextInput) (s : State) (cp : Nat) (t : Int)
    (fb : Feedback) (s1 : State) (h : ti.step s cp t = some (fb, s1)) :
    (TextInput.reset s).typo = false ∧
    (s.typo = true → s1.typo = false → s.steps.length < s1.steps.length) ∧
    (ti.normalizeWhitespace cp = 0x0008 →
      s1.typo = s.typo ∧ s1.steps = s.steps ∧
        (s1.garbage = s.garbage.dropLast ∨ s1.garbage = s.garbage)) ∧
    (s.typo = true → s.steps.length < s1.steps.length →
      (s1.steps.getD s.steps.length ⟨0, 0, false⟩).typo = true) ∧
    (fb = Feedback.Failed → ti.normalizeWhitespace cp ≠ 0x0008 → s1.typo = true) := by
  refine ⟨rfl, ?_⟩
  unfold TextInput.step at h
  split_ifs at h with h1 h2 h3 h4 h5 h6 h7
  · simp only [Option.some.injEq, Prod.mk.injEq] at h
    obtain ⟨hfb, hs1⟩ := h
    subst hs1
    refine ⟨fun a b => by simp [a] at b, fun _ => ⟨rfl, rfl, Or.inr rfl⟩,
      fun _ hlt => absurd hlt (Nat.lt_irrefl _),
      fun hf => absurd (hfb.trans hf) (by simp)⟩
  · simp only [Option.some.injEq, Prod.mk.injEq] at h
    obtain ⟨hfb, hs1⟩ := h
    subst hs1
    refine ⟨fun a b => by simp [a] at b, fun _ => ⟨rfl, rfl, Or.inl rfl⟩,
      fun _ hlt => absurd hlt (Nat.lt_irrefl _),
      fun hf => absurd (hfb.trans hf) (by simp)⟩
  · simp only [Option.some.injEq, Prod.mk.injEq] at h
    obtain ⟨hfb, hs1⟩ := h
    subst hs1
    refine ⟨fun a b => by simp [a] at b, fun _ => ⟨rfl, rfl, Or.inr rfl⟩,
      fun _ hlt => absurd hlt (Nat.lt_irrefl _),
      fun _ hne => absurd h3 hne⟩
  · simp only [Option.some.injEq, Prod.mk.injEq] at h
    obtain ⟨hfb, hs1⟩ := h
    subst hs1
    refine ⟨fun a b => by simp [a] at b, fun h8 => absurd (h8.symm.trans h5.1) (by simp),
      fun _ hlt => absurd hlt (Nat.lt_irrefl _),
      fun hf => absurd (hfb.trans hf) (by simp)⟩
  · simp only [Option.some.injEq, Prod.mk.injEq] at h
    obtain ⟨hfb, hs1⟩ := h
    subst hs1
    obtain ⟨hty, hgar, rest, hsteps⟩ := handleSpace_parts ti t s
    refine ⟨fun _ _ => by rw [hsteps]; simp, fun h8 => absurd (h8.symm.trans h5.1) (by simp),
      fun _ _ => by rw [hsteps, getD_append_cons],
      fun hf => absurd (hfb.trans hf) (by simp)⟩
  · rw [Option.some_inj] at h
    obtain ⟨c1, c3, c4⟩ := stepTail_analysis ti s _ t fb s1 h
    exact ⟨fun _ hf => c1 hf, fun h8 => absurd (h8.symm.trans h5.1) (by simp),
      c3, fun hf _ => c4 hf⟩
  · rw [Option.some_inj] at h
    obtain ⟨c1, c3, c4⟩ := stepTail_analysis ti s _ t fb s1 h
    exact ⟨fun _ hf => c1 hf, fun h8 => absurd h8 h3, c3, fun hf _ => c4 hf⟩

/-- C6 witness: the recovery commit after an outstanding typo on target
abcd records the committed a with typo = true. -/
theorem typo_flag_lifecycle_witness :
    tiABCD.step sAfterX 97 1 =
      some (Feedback.Recovered, { steps := [⟨97, 1, true⟩], garbage := [], typo := false }) ∧
    ((TextInput.reset sAfterX).typo = false ∧
    (sAfterX.typo = true →
      ({ steps := [⟨97, 1, true⟩], garbage := [], typo := false } : State).typo = false →
      sAfterX.steps.length <
        ({ steps := [⟨97, 1, true⟩], garbage := [], typo := false } : State).steps.length) ∧
    (tiABCD.normalizeWhitespace 97 = 0x0008 →
      ({ steps := [⟨97, 1, true⟩], garbage := [], typo := false } : State).typo = sAfterX.typo ∧
      ({ steps := [⟨97, 1, true⟩], garbage := [], typo := false } : State).steps = sAfterX.steps ∧
        (({ steps := [⟨97, 1, true⟩], garbage := [], typo := false } : State).garbage =
            sAfterX.garbage.dropLast ∨
          ({ steps := [⟨97, 1, true⟩], garbage := [], typo := false } : State).garbage =
            sAfterX.garbage)) ∧
    (sAfterX.typo = true →
      sAfterX.steps.length <
        ({ steps := [⟨97, 1, true⟩], garbage := [], typo := false } : State).steps.length →
      (({ steps := [⟨97, 1, true⟩], garbage := [], typo := false } : State).steps.getD
        sAfterX.steps.length ⟨0, 0, false⟩).typo = true) ∧
    (Feedback.Recovered = Feedback.Failed → tiABCD.normalizeWhitespace 97 ≠ 0x0008 →
      ({ steps := [⟨97, 1, true⟩], garbage := [], typo := false } : State).typo = true)) :=
  ⟨by decide, typo_flag_lifecycle tiABCD sAfterX 97 1 Feedback.Recovered
    { steps := [⟨97, 1, true⟩], garbage := [], typo := false } (by decide)⟩

/-! Garbage-buffer bound lemmas. -/

lemma mismatchState_garbage_le (ti : TextInput) (s : State) (cp : Nat) (t : Int)
    (hg : s.garbage.length ≤ garbageBufferLength) :
    (ti.mismatchState s cp t).garbage.length ≤ garbageBufferLength := by
  unfold TextInput.mismatchState
  split_ifs with hc
  · simp only [List.length_append, List.length_singleton]
    omega
  · exact hg

lemma stepTail_garbage_le (ti : TextInput) (s : State) (cp : Nat) (t : Int)
    (fb : Feedback) (s1 : State) (hg : s.garbage.length ≤ garbageBufferLength)
    (h : ti.stepTail s cp t = (fb, s1)) :
    s1.garbage.length ≤ garbageBufferLength := by
  unfold TextInput.stepTail at h
  by_cases hm : ti.normalize (ti.charAt s.steps.length) = cp ∧
      (ti.forgiveErrors = true ∨ s.garbage.length = 0)
  · rw [if_pos hm] at h
    simp only [Prod.mk.injEq] at h
    rw [← h.2]
    simp [garbageBufferLength]
  · rw [if_neg hm] at h
    by_cases hforgive : ti.forgiveErrors = true
    · rw [if_pos hforgive] at h
      split at h
      · next s3 hor =>
        simp only [Prod.mk.injEq] at h
        rw [← h.2]
        rcases Option.or_eq_some.mp hor with hrep | ⟨-, hskipd⟩
        · rw [(replaced_some_parts ti _ s3 hrep).2.1]
          simp [garbageBufferLength]
        · rw [(skipped_some_parts ti _ s3 hskipd).2.1]
          simp [garbageBufferLength]
      · simp only [Prod.mk.injEq] at h
        rw [← h.2]
        exact mismatchState_garbage_le ti s cp t hg
    · rw [if_neg hforgive] at h
      simp only [Prod.mk.injEq] at h
      rw [← h.2]
      exact mismatchState_garbage_le ti s cp t hg

lemma step_garbage_le (ti : TextInput) (s : State) (cp : Nat) (t : Int)
    (fb : Feedback) (s1 : State) (hg : s.garbage.length ≤ garbageBufferLength)
    (h : ti.step s cp t = some (fb, s1)) :
    s1.garbage.length ≤ garbageBufferLength := by
  unfold TextInput.step at h
  split_ifs at h with h1 h2 h3 h4 h5 h6 h7
  · simp only [Option.some.injEq, Prod.mk.injEq] at h
    rw [← h.2]
    exact hg
  · simp only [Option.some.injEq, Prod.mk.injEq] at h
    rw [← h.2]
    simp only [List.length_dropLast]
    omega
  · simp only [Option.some.injEq, Prod.mk.injEq] at h
    rw [← h.2]
    exact hg
  · simp only [Option.some.injEq, Prod.mk.injEq] at h
    rw [← h.2]
    exact hg
  · simp only [Option.some.injEq, Prod.mk.injEq] at h
    rw [← h.2, (handleSpace_parts ti t s).2.1]
    simp [garbageBufferLength]
  · rw [Option.some_inj] at h
    exact stepTail_garbage_le ti s _ t fb s1 hg h
  · rw [Option.some_inj] at h
    exact stepTail_garbage_le ti s _ t fb s1 hg h

lemma reachable_garbage_le (ti : TextInput) (s : State) (h : Reachable ti s) :
    s.garbage.length ≤ garbageBufferLength := by
  induction h with
  | init => simp [initState, garbageBufferLength]
  | reset s hs ih => simp [TextInput.reset, initState, garbageBufferLength]
  | step s cp t fb s1 hs hstep ih => exact step_garbage_le ti s cp t fb s1 ih hstep

/-- C7: in every state reachable by any sequence of step and reset
calls the garbage buffer holds at most 10 entries, and a keystroke that
the mismatch path rejects while the buffer is full is silently dropped:
the call still returns a feedback value and leaves the buffer exactly
as it was. -/
theorem garbage_bound (ti : TextInput) (s : State) (h : Reachable ti s) :
    s.garbage.length ≤ garbageBufferLength ∧
    (∀ (cp : Nat) (t : Int) (s1 : State), s.garbage.length = garbageBufferLength →
      ti.step s cp t = some (Feedback.Failed, s1) → s1.garbage = s.garbage) := by
  refine ⟨reachable_garbage_le ti s h, fun cp t s1 hfull hstep => ?_⟩
  rcases step_failed_cases ti s cp t s1 hstep with ⟨-, -, rfl⟩ | rfl
  · rfl
  · exact mismatchState_garbage_full ti s _ t hfull

/-- C7 witness: the freshly constructed state is reachable and
satisfies the bound. -/
theorem garbage_bound_witness :
    Reachable tiPlain initState ∧
    (initState.garbage.length ≤ garbageBufferLength ∧
      (∀ (cp : Nat) (t : Int) (s1 : State),
        initState.garbage.length = garbageBufferLength →
        tiPlain.step initState cp t = some (Feedback.Failed, s1) →
        s1.garbage = initState.garbage)) :=
  ⟨Reachable.init, garbage_bound tiPlain initState Reachable.init⟩

/-! Rendering projection lemmas. -/

lemma flatMap_singleton_eq_map {α β : Type} (l : List α) (f : α → List β) (g : α → β)
    (hfg : ∀ i ∈ l, f i = [g i]) : l.flatMap f = l.map g := by
  induction l with
  | nil => rfl
  | cons a l ih =>
    simp only [List.flatMap_cons, List.map_cons, hfg a (by simp)]
    rw [ih (fun i hi => hfg i (by simp [hi]))]
    rfl

lemma flatMap_range'_split {β : Type} (a b c : Nat) (f : Nat → List β) (h : b ≤ c) :
    (List.range' a c).flatMap f =
      (List.range' a b).flatMap f ++ (List.range' (a + b) (c - b)).flatMap f := by
  conv_lhs => rw [show c = (c - b) + b from by omega]
  rw [← List.range'_append a b (c - b) 1, List.flatMap_append]
  simp

/-- C8: getChars renders, in order, every position before the cursor as
miss when its committed step was a typo and hit otherwise, then, when
the cursor is inside the text, the buffered garbage entries (unless
stopOnError) followed by the expected character as the cursor, then
every position after the cursor as normal; being a pure function of the
state it mutates nothing. -/
theorem getChars_spec (ti : TextInput) (s : State) :
    ti.getChars s =
      ((ti.codePoints.take s.steps.length).zip s.steps).map
        (fun p => toChar p.1 (if p.2.typo then attrMiss else attrHit)) ++
      (if s.steps.length < ti.codePoints.length then
        (if ti.stopOnError = false then
          s.garbage.map (fun g => toChar g.codePoint attrGarbage)
        else []) ++ [toChar (ti.charAt s.steps.length) attrCursor]
      else []) ++
      (ti.codePoints.drop (s.steps.length + 1)).map (fun c => toChar c attrNormal) := by
  simp only [TextInput.getChars]
  rw [List.range_eq_range']
  by_cases hmn : s.steps.length < ti.codePoints.length
  · rw [flatMap_range'_split 0 s.steps.length ti.codePoints.length _ (Nat.le_of_lt hmn)]
    simp only [Nat.zero_add]
    rw [show ti.codePoints.length - s.steps.length =
      (ti.codePoints.length - s.steps.length - 1) + 1 from by omega]
    rw [List.range'_succ, List.flatMap_cons]
    have hA : (List.range' 0 s.steps.length).flatMap
        (fun i => if i < s.steps.length then
          [toChar (ti.charAt i) (if (s.steps.getD i ⟨0, 0, false⟩).typo then attrMiss else attrHit)]
        else if i = s.steps.length then
          (if ti.stopOnError = false then
            s.garbage.map (fun g => toChar g.codePoint attrGarbage)
          else []) ++ [toChar (ti.charAt i) attrCursor]
        else [toChar (ti.charAt i) attrNormal]) =
        ((ti.codePoints.take s.steps.length).zip s.steps).map
          (fun p => toChar p.1 (if p.2.typo then attrMiss else attrHit)) := by
      rw [flatMap_singleton_eq_map _ _
        (fun i => toChar (ti.charAt i)
          (if (s.steps.getD i ⟨0, 0, false⟩).typo then attrMiss else attrHit))
        (fun i hi => by
          rw [if_pos]
          have := List.mem_range'_1.mp hi
          omega)]
      refine List.ext_getElem (by simp; omega) (fun i hi1 hi2 => ?_)
      have hi : i < s.steps.length := by
        simpa using hi1
      have hin : i < ti.codePoints.length := by omega
      simp only [List.getElem_map, List.getElem_range', List.getElem_zip, List.getElem_take]
      rw [Nat.one_mul, Nat.zero_add, TextInput.charAt, List.getD_eq_getElem _ _ hin,
        List.getD_eq_getElem _ _ hi]
    have hC : (List.range' (s.steps.length + 1)
        (ti.codePoints.length - s.steps.length - 1)).flatMap
        (fun i => if i < s.steps.length then
          [toChar (ti.charAt i) (if (s.steps.getD i ⟨0, 0, false⟩).typo then attrMiss else attrHit)]
        else if i = s.steps.length then
          (if ti.stopOnError = false then
            s.garbage.map (fun g => toChar g.codePoint attrGarbage)
          else []) ++ [toChar (ti.charAt i) attrCursor]
        else [toChar (ti.charAt i) attrNormal]) =
        (ti.codePoints.drop (s.steps.length + 1)).map (fun c => toChar c attrNormal) := by
      rw [flatMap_singleton_eq_map _ _ (fun i => toChar (ti.charAt i) attrNormal)
        (fun i hi => by
          have := List.mem_range'_1.mp hi
          rw [if_neg (by omega), if_neg (by omega)])]
      refine List.ext_getElem (by simp; omega) (fun i hi1 hi2 => ?_)
      have hi : i < ti.codePoints.length - s.steps.length - 1 := by
        simpa using hi1
      simp only [List.getElem_map, List.getElem_range', List.getElem_drop]
      rw [Nat.one_mul, TextInput.charAt,
        List.getD_eq_getElem _ _ (by omega : s.steps.length + 1 + i < ti.codePoints.length)]
    rw [hA, hC, if_neg (Nat.lt_irrefl _), if_pos rfl, if_pos hmn]
    simp [List.append_assoc]
  · rw [if_neg hmn, List.drop_eq_nil_of_le (by omega : ti.codePoints.length ≤ s.steps.length + 1)]
    simp only [List.map_nil, List.append_nil]
    rw [flatMap_singleton_eq_map _ _
      (fun i => toChar (ti.charAt i)
        (if (s.steps.getD i ⟨0, 0, false⟩).typo then attrMiss else attrHit))
      (fun i hi => by
        rw [if_pos]
        have := List.mem_range'_1.mp hi
        omega)]
    refine List.ext_getElem (by simp; omega) (fun i hi1 hi2 => ?_)
    have hi : i < ti.codePoints.length := by simpa using hi1
    simp only [List.getElem_map, List.getElem_range', List.getElem_zip, List.getElem_take]
    rw [Nat.one_mul, Nat.zero_add, TextInput.charAt, List.getD_eq_getElem _ _ hi,
      List.getD_eq_getElem _ _ (by omega : i < s.steps.length)]

/-! Histogram aggregation lemmas. -/

lemma getAcc_bump (m : List (Nat × Acc)) (cp : Nat) (f : Acc → Acc) (c : Nat) :
    getAcc (bump m cp f) c = if cp = c then f (getAcc m c) else getAcc m c := by
  induction m with
  | nil =>
    by_cases hc : cp = c
    · subst hc
      simp [bump, getAcc, lookupAcc]
    · simp [bump, getAcc, lookupAcc, hc]
  | cons p m ih =>
    obtain ⟨k, a⟩ := p
    simp only [bump]
    by_cases hk : k = cp
    · subst hk
      rw [if_pos rfl]
      by_cases hc : k = c
      · subst hc
        simp [getAcc, lookupAcc]
      · simp [getAcc, lookupAcc, hc]
    · rw [if_neg hk]
      by_cases hc : k = c
      · subst hc
        have hcp : ¬cp = k := fun hcontra => hk hcontra.symm
        simp [getAcc, lookupAcc, hcp]
      · simp only [getAcc, lookupAcc, if_neg hc]
        exact ih

lemma getAcc_fromLoop (c : Nat) :
    ∀ (steps : List Step) (last : Option Step) (m : List (Nat × Acc)),
    getAcc (fromLoop last m steps) c =
      ⟨(getAcc m c).hitCount + hitCountSpec steps c,
       (getAcc m c).missCount + missCountSpec steps c,
       (getAcc m c).timeToType + latSum last c steps⟩ := by
  intro steps
  induction steps with
  | nil =>
    intro last m
    simp [fromLoop, hitCountSpec, missCountSpec, latSum]
  | cons st rest ih =>
    intro last m
    have hlat : latSum last c (st :: rest) =
        (if st.codePoint = c ∧ st.typo = false ∧ last.isSome = true then
          st.timeStamp - (last.getD ⟨0, 0, false⟩).timeStamp
        else 0) + latSum (some st) c rest := rfl
    simp only [fromLoop]
    rw [ih, getAcc_bump]
    by_cases hcp : st.codePoint = c
    · have hhit : hitCountSpec (st :: rest) c = hitCountSpec rest c + 1 := by
        simp [hitCountSpec, List.filter_cons, hcp]
      rw [if_pos hcp]
      unfold stepAcc
      by_cases hty : st.typo = true
      · have hmiss : missCountSpec (st :: rest) c = missCountSpec rest c + 1 := by
          simp [missCountSpec, List.filter_cons, hcp, hty]
        have hl : latSum last c (st :: rest) = latSum (some st) c rest := by
          rw [hlat, if_neg (by simp [hty])]
          simp
        rw [if_pos hty, hhit, hmiss, hl]
        dsimp only
        congr 1
        all_goals omega
      · have hty0 : st.typo = false := by
          rcases hb : st.typo
          · rfl
          · exact absurd hb hty
        have hmiss : missCountSpec (st :: rest) c = missCountSpec rest c := by
          simp [missCountSpec, List.filter_cons, hty0]
        rw [if_neg hty, hmiss]
        rcases hlaste : last with _ | l
        · subst hlaste
          have hl : latSum none c (st :: rest) = latSum (some st) c rest := by
            rw [hlat]
            simp
          rw [hl, hhit]
          dsimp only
          congr 1
          all_goals omega
        · subst hlaste
          have hl : latSum (some l) c (st :: rest) =
              (st.timeStamp - l.timeStamp) + latSum (some st) c rest := by
            rw [hlat, if_pos ⟨hcp, hty0, rfl⟩]
            simp
          rw [hl, hhit]
          dsimp only
          congr 1
          all_goals omega
    · have hbeq : (st.codePoint == c) = false := by
        simp [hcp]
      have hhit : hitCountSpec (st :: rest) c = hitCountSpec rest c := by
        simp [hitCountSpec, List.filter_cons, hbeq]
      have hmiss : missCountSpec (st :: rest) c = missCountSpec rest c := by
        simp [missCountSpec, List.filter_cons, hbeq]
      have hl : latSum last c (st :: rest) = latSum (some st) c rest := by
        rw [hlat, if_neg (by rintro ⟨hc1, -⟩; exact hcp hc1)]
        simp
      rw [if_neg hcp, hhit, hmiss, hl]

lemma keys_bump (m : List (Nat × Acc)) (cp : Nat) (f : Acc → Acc) :
    keys (bump m cp f) = if cp ∈ keys m then keys m else keys m ++ [cp] := by
  induction m with
  | nil => simp [bump, keys]
  | cons p m ih =>
    obtain ⟨k, a⟩ := p
    by_cases hk : k = cp
    · subst hk
      simp [bump, keys]
    · simp only [bump, if_neg hk, keys, List.map_cons]
      simp only [keys] at ih
      rw [ih]
      by_cases hm : cp ∈ List.map Prod.fst m
      · rw [if_pos hm, if_pos (List.mem_cons.mpr (Or.inr hm))]
      · rw [if_neg hm, if_neg (by
          simp only [List.mem_cons]
          rintro (rfl | hmm2)
          · exact hk rfl
          · exact hm hmm2)]
        rfl

lemma mem_keys_bump (m : List (Nat × Acc)) (cp : Nat) (f : Acc → Acc) (c : Nat) :
    c ∈ keys (bump m cp f) ↔ c ∈ keys m ∨ c = cp := by
  rw [keys_bump]
  split_ifs with h
  · constructor
    · exact Or.inl
    · rintro (h1 | rfl)
      · exact h1
      · exact h
  · simp [List.mem_append]

lemma nodup_keys_bump (m : List (Nat × Acc)) (cp : Nat) (f : Acc → Acc)
    (h : (keys m).Nodup) : (keys (bump m cp f)).Nodup := by
  rw [keys_bump]
  split_ifs with hmem
  · exact h
  · simp [List.nodup_append, h, hmem]

lemma mem_keys_fromLoop (c : Nat) :
    ∀ (steps : List Step) (last : Option Step) (m : List (Nat × Acc)),
    c ∈ keys (fromLoop last m steps) ↔ c ∈ keys m ∨ c ∈ steps.map Step.codePoint := by
  intro steps
  induction steps with
  | nil =>
    intro last m
    simp [fromLoop]
  | cons st rest ih =>
    intro last m
    simp only [fromLoop, List.map_cons, List.mem_cons]
    rw [ih, mem_keys_bump]
    constructor
    · rintro ((h1 | rfl) | h2)
      · exact Or.inl h1
      · exact Or.inr (Or.inl rfl)
      · exact Or.inr (Or.inr h2)
    · rintro (h1 | rfl | h2)
      · exact Or.inl (Or.inl h1)
      · exact Or.inl (Or.inr rfl)
      · exact Or.inr h2

lemma nodup_keys_fromLoop :
    ∀ (steps : List Step) (last : Option Step) (m : List (Nat × Acc)),
    (keys m).Nodup → (keys (fromLoop last m steps)).Nodup := by
  intro steps
  induction steps with
  | nil =>
    intro last m h
    exact h
  | cons st rest ih =>
    intro last m h
    exact ih _ _ (nodup_keys_bump m st.codePoint _ h)

lemma filter_keys_not_mem (m : List (Nat × Acc)) (c : Nat) (h : c ∉ keys m) :
    m.filter (fun p => p.1 == c) = [] := by
  induction m with
  | nil => rfl
  | cons p m ih =>
    obtain ⟨k, a⟩ := p
    simp only [keys, List.map_cons, List.mem_cons, not_or] at h
    rw [List.filter_cons, if_neg (by
      simp only [beq_iff_eq]
      exact fun hc => h.1 hc.symm)]
    exact ih (by
      simp only [keys]
      exact h.2)

lemma filter_eq_singleton_of_nodup :
    ∀ (m : List (Nat × Acc)) (c : Nat), (keys m).Nodup → c ∈ keys m →
    m.filter (fun p => p.1 == c) = [(c, getAcc m c)] := by
  intro m
  induction m with
  | nil =>
    intro c _ hmem
    simp [keys] at hmem
  | cons p m ih =>
    obtain ⟨k, a⟩ := p
    intro c hnd hmem
    by_cases hk : k = c
    · subst hk
      have hknot : k ∉ keys m :=
        (List.nodup_cons.mp (show (k :: keys m).Nodup from hnd)).1
      rw [List.filter_cons, if_pos (by simp)]
      rw [filter_keys_not_mem m k hknot]
      simp [getAcc, lookupAcc]
    · have hmem2 : c ∈ keys m := by
        rcases List.mem_cons.mp (show c ∈ k :: keys m from hmem) with h1 | h1
        · exact absurd h1.symm hk
        · exact h1
      have hnd2 : (keys m).Nodup :=
        (List.nodup_cons.mp (show (k :: keys m).Nodup from hnd)).2
      rw [List.filter_cons, if_neg (by simp [hk])]
      rw [ih c hnd2 hmem2]
      simp [getAcc, lookupAcc, hk]

lemma insertByCodePoint_perm (x : Sample) (l : List Sample) :
    (insertByCodePoint x l).Perm (x :: l) := by
  induction l with
  | nil => exact List.Perm.refl _
  | cons y ys ih =>
    simp only [insertByCodePoint]
    split_ifs with h
    · exact (List.Perm.cons y ih).trans (List.Perm.swap x y ys)
    · exact List.Perm.refl _

lemma sortByCodePoint_perm (l : List Sample) : (sortByCodePoint l).Perm l := by
  induction l with
  | nil => exact List.Perm.refl _
  | cons x xs ih =>
    exact (insertByCodePoint_perm x (sortByCodePoint xs)).trans (List.Perm.cons x ih)

lemma hist_get_of_filter_singleton (l : List Sample) (c : Nat) (a : Sample)
    (h : l.filter (fun s => s.codePoint == c) = [a]) :
    (Histogram.ofSamples l).get c = some a := by
  unfold Histogram.ofSamples Histogram.get
  have hperm := (sortByCodePoint_perm l).filter (fun s => s.codePoint == c)
  rw [h] at hperm
  simp only [List.perm_singleton.mp hperm]
  rfl

/-- C4 counterexample: on the histogram example of the spec, the steps
(97, 0, non-typo), (97, 10, non-typo), (97, 5, typo) with no startedAt,
the code sums the single latency 10 and divides it by the total
hitCount 3, yielding timeToType 3; a mean computed only over the
non-typo latencies would be 10, so the sample produced by the code
differs from the sample the claim describes. -/
theorem histogram_timeToType_cex :
    (Histogram.fromSteps exSteps none).get 97 = some ⟨97, 3, 1, 3⟩ ∧
    mathRound (latSum (lastOfStartedAt none) 97 exSteps)
      (latCount (lastOfStartedAt none) 97 exSteps) = 10 ∧
    (Histogram.fromSteps exSteps none).get 97 ≠
      some ⟨97, hitCountSpec exSteps 97, missCountSpec exSteps 97,
        mathRound (latSum (lastOfStartedAt none) 97 exSteps)
          (latCount (lastOfStartedAt none) 97 exSteps)⟩ :=
  ⟨by decide, by decide, by decide⟩

/-- C4 (amended): for every code point occurring in the steps, the
sample produced by Histogram.from has hitCount the number of steps with
that code point, missCount the number of those that are typos, and
timeToType the rounded quotient of the summed inter-step latencies of
its non-typo steps, measured from the immediately preceding step or
startedAt, by the total hitCount, typo occurrences included, not by the
number of non-typo steps. -/
theorem histogram_sample_spec (steps : List Step) (startedAt : Option Int) (c : Nat)
    (h : 0 < hitCountSpec steps c) :
    (Histogram.fromSteps steps startedAt).get c =
      some ⟨c, hitCountSpec steps c, missCountSpec steps c,
        mathRound (latSum (lastOfStartedAt startedAt) c steps) (hitCountSpec steps c)⟩ := by
  unfold Histogram.fromSteps
  apply hist_get_of_filter_singleton
  unfold fromSamples
  rw [List.filter_map]
  have hcomp : ((fun s : Sample => s.codePoint == c) ∘
      fun p : Nat × Acc =>
        (⟨p.1, p.2.hitCount, p.2.missCount, mathRound p.2.timeToType p.2.hitCount⟩ : Sample)) =
      fun p : Nat × Acc => p.1 == c := rfl
  rw [hcomp]
  have hmem : c ∈ keys (fromLoop (lastOfStartedAt startedAt) [] steps) := by
    rw [mem_keys_fromLoop]
    right
    have hne : (steps.filter fun s => s.codePoint == c) ≠ [] := by
      intro hx
      rw [hitCountSpec, hx] at h
      simp at h
    obtain ⟨st, hst⟩ := List.exists_mem_of_ne_nil _ hne
    obtain ⟨hst1, hst2⟩ := List.mem_filter.mp hst
    exact List.mem_map.mpr ⟨st, hst1, beq_iff_eq.mp hst2⟩
  rw [filter_eq_singleton_of_nodup _ c
    (nodup_keys_fromLoop steps (lastOfStartedAt startedAt) [] (by simp [keys]))
    hmem]
  rw [getAcc_fromLoop]
  simp [getAcc, lookupAcc]

/-- C4 witness: the amended statement evaluated on the histogram
example of the spec. -/
theorem histogram_sample_spec_witness :
    0 < hitCountSpec exSteps 97 ∧
    (Histogram.fromSteps exSteps none).get 97 = some ⟨97, 3, 1, 3⟩ :=
  ⟨by decide, (histogram_sample_spec exSteps none 97 (by decide)).trans (by decide)⟩

end Keybr
